import Mathlib

/-!
Verification of `jax/_src/scipy/fft.py` (DCT-II / IDCT-II via FFT, Makhoul's
algorithm).

The transforms act independently along one axis of an array: every primitive of
the source (`lax.slice_in_dim`, `lax.rev`, `lax.concatenate`, `lax.pad`,
`jnp.fft.fft`, broadcasting of the twiddle index array) acts on each
one-dimensional line along the transform axis separately.  We therefore embed
the one-dimensional action on a line `Fin N → ℝ` and, for the two-dimensional
fast path `_dct2` and the `dctn`/`idctn` drivers, on matrices
`Fin N1 → Fin N2 → ℝ`.  Machine floats are idealized as exact reals; the dtype
behaviour of `idct` (the `float32` cast) is embedded separately as a shadow
semantics on dtypes.
-/

open Finset

noncomputable section

/-- Unit-modulus complex exponential `exp(r·i)`; every twiddle factor and FFT
root of unity in the source is of this form. -/
def ep (r : ℝ) : ℂ := Complex.exp (r * Complex.I)

theorem ep_zero : ep 0 = 1 := by simp [ep]

theorem ep_add (a b : ℝ) : ep (a + b) = ep a * ep b := by
  rw [ep, ep, ep, ← Complex.exp_add]
  congr 1
  push_cast
  ring

theorem ep_ne_zero (a : ℝ) : ep a ≠ 0 := Complex.exp_ne_zero _

theorem ep_conj (a : ℝ) : starRingEnd ℂ (ep a) = ep (-a) := by
  rw [ep, ← Complex.exp_conj]
  congr 1
  simp

theorem ep_inv (a : ℝ) : (ep a)⁻¹ = ep (-a) := by
  rw [ep, ep, ← Complex.exp_neg]
  congr 1
  push_cast
  ring

theorem ep_mul_ep_neg (a : ℝ) : ep a * ep (-a) = 1 := by
  rw [← ep_add]
  simp [ep_zero]

theorem ep_div (a b : ℝ) : ep a / ep b = ep (a - b) := by
  rw [div_eq_mul_inv, ep_inv, ← ep_add, sub_eq_add_neg]

theorem ep_pow (a : ℝ) (m : ℕ) : ep a ^ m = ep (m * a) := by
  rw [ep, ep, ← Complex.exp_nat_mul]
  congr 1
  push_cast
  ring

theorem ep_int_two_pi (m : ℤ) : ep (2 * Real.pi * m) = 1 := by
  rw [ep, show ((2 * Real.pi * (m:ℝ) : ℝ) : ℂ) * Complex.I
        = m * (2 * (Real.pi:ℂ) * Complex.I) by push_cast; ring]
  exact Complex.exp_int_mul_two_pi_mul_I m

theorem ep_eq_one_iff (a : ℝ) : ep a = 1 ↔ ∃ m : ℤ, a = 2 * Real.pi * m := by
  constructor
  · intro h
    rw [ep, Complex.exp_eq_one_iff] at h
    obtain ⟨m, hm⟩ := h
    refine ⟨m, ?_⟩
    have h2 : ((a : ℂ) - m * (2 * Real.pi)) * Complex.I = 0 := by
      rw [sub_mul, hm]; ring
    rcases mul_eq_zero.mp h2 with h3 | h3
    · have h4 : (a : ℂ) = ((2 * Real.pi * m : ℝ) : ℂ) := by
        push_cast
        linear_combination h3
      exact Complex.ofReal_injective h4
    · exact absurd h3 Complex.I_ne_zero
  · rintro ⟨m, hm⟩
    exact hm ▸ ep_int_two_pi m

/-! ### Array primitives (the `lax` collaborators)

Modelled from the spec: the external array collaborators `lax.slice_in_dim`
(stride-2 slices), `lax.rev`, `lax.concatenate`, and `lax.pad` with a trailing
pad amount (negative amounts truncate), each acting on one line along the
transform axis. -/

/-- Modelled from the spec: `lax.slice_in_dim(x, None, None, 2, axis)` on a
line — the even-indexed subsequence. -/
def sliceEven {α : Type} {N : ℕ} (x : Fin N → α) : Fin ((N + 1) / 2) → α :=
  fun j => x ⟨2 * j.val, by omega⟩

/-- Modelled from the spec: `lax.slice_in_dim(x, 1, None, 2, axis)` on a
line — the odd-indexed subsequence. -/
def sliceOdd {α : Type} {N : ℕ} (x : Fin N → α) : Fin (N / 2) → α :=
  fun j => x ⟨2 * j.val + 1, by omega⟩

/-- Modelled from the spec: `lax.rev` / `jnp.flip` along the axis. -/
def revLine {α : Type} {M : ℕ} (x : Fin M → α) : Fin M → α :=
  fun j => x ⟨M - 1 - j.val, by omega⟩

/-- Modelled from the spec: `lax.concatenate` of two lines along the axis. -/
def concatLine {α : Type} {m k : ℕ} (a : Fin m → α) (b : Fin k → α) :
    Fin (m + k) → α :=
  fun i => if h : i.val < m then a ⟨i.val, h⟩ else b ⟨i.val - m, by omega⟩

/-- Modelled from the spec: `lax.pad` with trailing pad amount `n - N` on a
length-`N` line (zero-pads when `n > N`, truncates trailing elements when
`n < N`). -/
def padTo {N : ℕ} (n : ℕ) (x : Fin N → ℝ) : Fin n → ℝ :=
  fun i => if h : i.val < N then x ⟨i.val, h⟩ else 0

/-- Source `_dct_interleave`: concatenate the even-indexed subsequence with the
reversed odd-indexed subsequence along the axis. -/
def _dct_interleave {α : Type} {N : ℕ} (x : Fin N → α) : Fin N → α :=
  fun i => concatLine (sliceEven x) (revLine (sliceOdd x)) ⟨i.val, by omega⟩

theorem _dct_interleave_mk {α : Type} {N : ℕ} (x : Fin N → α) (j : ℕ)
    (hj : j < N) :
    _dct_interleave x ⟨j, hj⟩ =
      if h : 2 * j < N then x ⟨2 * j, h⟩
      else x ⟨2 * N - 1 - 2 * j, by omega⟩ := by
  show concatLine (sliceEven x) (revLine (sliceOdd x)) ⟨j, by omega⟩ = _
  unfold concatLine sliceEven revLine sliceOdd
  by_cases h1 : j < (N + 1) / 2
  · rw [dif_pos h1, dif_pos (by omega : 2 * j < N)]
  · rw [dif_neg h1, dif_neg (by omega : ¬ 2 * j < N)]
    exact congrArg x (Fin.ext (by dsimp only; omega))

/-- Source `_dct_deinterleave`: split the line at `⌈N/2⌉` (`x[ix0]`, `x[ix1]`),
reverse the tail, and scatter head into even positions and reversed tail into
odd positions of a zero-initialized output.  The zero initialization
(`jnp.zeros`) is dead code because the even and odd scatters cover every index,
so the embedding needs no `Zero` instance: the two branches are the two
scatters. -/
def _dct_deinterleave {α : Type} {N : ℕ} (x : Fin N → α) : Fin N → α :=
  fun i =>
    if _h : i.val % 2 = 0 then
      -- out.at[evens].set(v0) with v0 = x[ix0] (the first ⌈N/2⌉ entries)
      (fun j : Fin ((N + 1) / 2) => x ⟨j.val, by omega⟩) ⟨i.val / 2, by omega⟩
    else
      -- out.at[odds].set(v1) with v1 = lax.rev(x[ix1])
      revLine (fun j : Fin (N - (N + 1) / 2) => x ⟨(N + 1) / 2 + j.val, by omega⟩)
        ⟨i.val / 2, by omega⟩

theorem _dct_deinterleave_mk {α : Type} {N : ℕ} (x : Fin N → α) (j : ℕ)
    (hj : j < N) :
    _dct_deinterleave x ⟨j, hj⟩ =
      if j % 2 = 0 then x ⟨j / 2, by omega⟩
      else x ⟨N - 1 - j / 2, by omega⟩ := by
  show (if _h : j % 2 = 0 then _ else _) = _
  by_cases h1 : j % 2 = 0
  · rw [dif_pos h1, if_pos h1]
  · rw [dif_neg h1, if_neg h1]
    show revLine _ _ = _
    unfold revLine
    exact congrArg x (Fin.ext (by dsimp only; omega))

theorem deinterleave_interleave {α : Type} {N : ℕ} (x : Fin N → α) :
    _dct_deinterleave (_dct_interleave x) = x := by
  funext i
  obtain ⟨j, hj⟩ := i
  rw [_dct_deinterleave_mk _ j hj]
  by_cases h1 : j % 2 = 0
  · rw [if_pos h1, _dct_interleave_mk x _ (by omega),
      dif_pos (by omega : 2 * (j / 2) < N)]
    exact congrArg x (Fin.ext (by dsimp only; omega))
  · rw [if_neg h1, _dct_interleave_mk x _ (by omega),
      dif_neg (by omega : ¬ 2 * (N - 1 - j / 2) < N)]
    exact congrArg x (Fin.ext (by dsimp only; omega))

theorem interleave_deinterleave {α : Type} {N : ℕ} (x : Fin N → α) :
    _dct_interleave (_dct_deinterleave x) = x := by
  funext i
  obtain ⟨j, hj⟩ := i
  rw [_dct_interleave_mk _ j hj]
  by_cases h1 : 2 * j < N
  · rw [dif_pos h1, _dct_deinterleave_mk x _ (by omega),
      if_pos (by omega : (2 * j) % 2 = 0)]
    exact congrArg x (Fin.ext (by dsimp only; omega))
  · rw [dif_neg h1, _dct_deinterleave_mk x _ (by omega),
      if_neg (by omega : ¬ (2 * N - 1 - 2 * j) % 2 = 0)]
    exact congrArg x (Fin.ext (by dsimp only; omega))

/-- C3: for every array (any element type, any axis length, the action along
any axis being the action on each line along that axis), `_dct_deinterleave` is
the exact structural inverse of `_dct_interleave`: both composites are the
identity, exactly, with no arithmetic involved. -/
theorem claim_c3_interleave_inverse (α : Type) (N : ℕ) (x : Fin N → α) :
    _dct_deinterleave (_dct_interleave x) = x ∧
    _dct_interleave (_dct_deinterleave x) = x :=
  ⟨deinterleave_interleave x, interleave_deinterleave x⟩

/-! ### The one-dimensional engine -/

/-- Modelled from the spec: `canonicalize_axis` from `jax._src.util` — a
negative axis maps to `rank + axis`, an axis outside `[-rank, rank-1]` is a
reported error. -/
def canonicalizeAxis (axis : ℤ) (rank : ℕ) : Except String ℕ :=
  if -(rank : ℤ) ≤ axis ∧ axis < (rank : ℤ) then
    .ok (if axis < 0 then (axis + rank).toNat else axis.toNat)
  else .error "ValueError: axis is out of bounds for array of given rank"

/-- Source `_dct_ortho_norm`: divide entry `k` by
`sqrt(factor_k · N)` where `factor = concatenate([full((1,), 4), full((N-1,), 2)])`. -/
def _dct_ortho_norm {N : ℕ} (out : Fin N → ℝ) : Fin N → ℝ :=
  fun k => out k /
    Real.sqrt (concatLine (fun _ : Fin 1 => (4 : ℝ)) (fun _ : Fin (N - 1) => (2 : ℝ))
      ⟨k.val, by omega⟩ * N)

theorem _dct_ortho_norm_apply {N : ℕ} (out : Fin N → ℝ) (k : Fin N) :
    _dct_ortho_norm out k =
      out k / Real.sqrt ((if k.val = 0 then 4 else 2) * N) := by
  unfold _dct_ortho_norm concatLine
  by_cases h : k.val = 0
  · rw [if_pos h, dif_pos (by omega : k.val < 1)]
  · rw [if_neg h, dif_neg (by omega : ¬ k.val < 1)]

/-- Source `_W4`: `exp(-.5j * π * k / N)` (after `promote_dtypes_complex`). -/
def _W4 (N : ℕ) (k : ℝ) : ℂ :=
  Complex.exp (-(1 / 2) * Complex.I * Real.pi * k / N)

theorem _W4_eq_ep (N : ℕ) (k : ℝ) : _W4 N k = ep (-(Real.pi * k) / (2 * N)) := by
  rw [_W4, ep]
  congr 1
  push_cast
  ring

theorem _W4_ne_zero (N : ℕ) (k : ℝ) : _W4 N k ≠ 0 := Complex.exp_ne_zero _

theorem _W4_zero (N : ℕ) : _W4 N 0 = 1 := by
  rw [_W4_eq_ep]
  simp [ep_zero]

/-- Modelled from the spec: the external FFT collaborator `jnp.fft.fft` along
the transform axis — the standard discrete Fourier transform
`V k = Σₙ v n · exp(-2πi·n·k/N)`, acting on each line. -/
def fft {N : ℕ} (v : Fin N → ℂ) : Fin N → ℂ :=
  fun k => ∑ n : Fin N, v n * ep (-(2 * Real.pi * n.val * k.val) / N)

/-- Modelled from the spec: the external inverse-FFT collaborator
`jnp.fft.ifft` — `w n = (Σₖ z k · exp(2πi·n·k/N)) / N`, acting on each line. -/
def ifft {N : ℕ} (z : Fin N → ℂ) : Fin N → ℂ :=
  fun n => (∑ k : Fin N, z k * ep (2 * Real.pi * n.val * k.val / N)) / N

/-- Source `dct` numeric kernel (after the type check, axis canonicalization
and optional padding): interleave, FFT, twiddle multiply, `2 · Re`. -/
def dctRaw {N : ℕ} (x : Fin N → ℝ) : Fin N → ℝ :=
  fun k => 2 * (fft (fun i => ((_dct_interleave x i : ℝ) : ℂ)) k * _W4 N k.val).re

/-- Source `dct` including the `norm == 'ortho'` branch. -/
def dctCore {N : ℕ} (norm : Option String) (x : Fin N → ℝ) : Fin N → ℝ :=
  if norm = some "ortho" then _dct_ortho_norm (dctRaw x) else dctRaw x

/-- Source `idct` normalization stage, verbatim: one `_dct_ortho_norm` pass
guarded by `norm is None`, then one unconditional pass. -/
def idctNormStage {N : ℕ} (norm : Option String) (x : Fin N → ℝ) : Fin N → ℝ :=
  _dct_ortho_norm (if norm = none then _dct_ortho_norm x else x)

/-- Source `idct` numeric kernel (after the type check, axis canonicalization
and optional padding).  The `x.astype(jnp.float32)` cast is the identity in
the exact-real idealization (its dtype effect is embedded separately below). -/
def idctCore {N : ℕ} (norm : Option String) (x : Fin N → ℝ) : Fin N → ℝ :=
  let x2 := idctNormStage norm x
  let z : Fin N → ℂ := fun k => ((x2 k : ℂ) / _W4 N k.val) * 2 * N
  _dct_deinterleave (fun n => (ifft z n).re)

/-- Source `dct` on a rank-1 array: type check, axis canonicalization,
optional pad/truncate to length `n`, then the kernel. -/
def dct {N : ℕ} (type : ℤ) (n : Option ℕ) (axis : ℤ) (norm : Option String)
    (x : Fin N → ℝ) : Except String (Fin (n.getD N) → ℝ) :=
  if type = 2 then
    (canonicalizeAxis axis 1).map (fun _ =>
      match n with
      | none => dctCore norm x
      | some m => dctCore norm (padTo m x))
  else .error "NotImplementedError: Only DCT type 2 is implemented."

/-- Source `idct` on a rank-1 array: type check, axis canonicalization,
optional pad/truncate to length `n`, then the kernel. -/
def idct {N : ℕ} (type : ℤ) (n : Option ℕ) (axis : ℤ) (norm : Option String)
    (x : Fin N → ℝ) : Except String (Fin (n.getD N) → ℝ) :=
  if type = 2 then
    (canonicalizeAxis axis 1).map (fun _ =>
      match n with
      | none => idctCore norm x
      | some m => idctCore norm (padTo m x))
  else .error "NotImplementedError: Only DCT type 2 is implemented."

/-! ### Roots of unity: orthogonality, inversion, and the odd-index sum -/

theorem sum_ep_dvd {N : ℕ} (hN : 0 < N) (d : ℤ) :
    ∑ k : Fin N, ep (2 * Real.pi * d * k.val / N) =
      if (N : ℤ) ∣ d then (N : ℂ) else 0 := by
  have hNr : (N : ℝ) ≠ 0 := Nat.cast_ne_zero.mpr hN.ne'
  have hterm : ∀ k : Fin N,
      ep (2 * Real.pi * d * k.val / N) = ep (2 * Real.pi * d / N) ^ k.val := by
    intro k
    rw [ep_pow]
    congr 1
    ring
  have hsum : (∑ k : Fin N, ep (2 * Real.pi * d * k.val / N)) =
      ∑ k in Finset.range N, ep (2 * Real.pi * d / N) ^ k := by
    rw [Finset.sum_congr rfl fun k _ => hterm k]
    exact Fin.sum_univ_eq_sum_range (fun k => ep (2 * Real.pi * d / N) ^ k) N
  rw [hsum]
  by_cases hd : (N : ℤ) ∣ d
  · obtain ⟨m, hm⟩ := hd
    have hz : ep (2 * Real.pi * d / N) = 1 := by
      rw [ep_eq_one_iff]
      refine ⟨m, ?_⟩
      rw [hm]
      push_cast
      field_simp
      ring
    rw [hz, if_pos ⟨m, hm⟩]
    simp
  · rw [if_neg hd]
    have hz1 : ep (2 * Real.pi * d / N) ≠ 1 := by
      intro h
      rw [ep_eq_one_iff] at h
      obtain ⟨m, hm⟩ := h
      apply hd
      refine ⟨m, ?_⟩
      have hπ : (2 : ℝ) * Real.pi ≠ 0 := by positivity
      rw [mul_div_assoc] at hm
      have hdN : (d : ℝ) / N = m := mul_left_cancel₀ hπ hm
      have hdm : (d : ℝ) = N * m := by
        rw [div_eq_iff hNr] at hdN
        linarith [hdN]
      exact_mod_cast hdm
    have hzN : ep (2 * Real.pi * d / N) ^ N = 1 := by
      rw [ep_pow, ep_eq_one_iff]
      refine ⟨d, ?_⟩
      field_simp
    rw [geom_sum_eq hz1, hzN]
    simp

theorem ifft_fft {N : ℕ} (hN : 0 < N) (v : Fin N → ℂ) : ifft (fft v) = v := by
  have hNc : (N : ℂ) ≠ 0 := Nat.cast_ne_zero.mpr hN.ne'
  funext n
  show (∑ k : Fin N, fft v k * ep (2 * Real.pi * n.val * k.val / N)) / N = v n
  have step1 : ∀ k : Fin N,
      fft v k * ep (2 * Real.pi * n.val * k.val / N) =
      ∑ m : Fin N, v m *
        ep (2 * Real.pi * ((((n.val : ℤ) - (m.val : ℤ)) : ℤ) : ℝ) * k.val / N) := by
    intro k
    rw [fft, Finset.sum_mul]
    refine Finset.sum_congr rfl fun m _ => ?_
    rw [mul_assoc, ← ep_add]
    congr 2
    push_cast
    ring
  rw [Finset.sum_congr rfl fun k _ => step1 k, Finset.sum_comm]
  have step2 : ∀ m : Fin N,
      (∑ k : Fin N, v m *
        ep (2 * Real.pi * ((((n.val : ℤ) - (m.val : ℤ)) : ℤ) : ℝ) * k.val / N)) =
      if m = n then v m * N else 0 := by
    intro m
    rw [← Finset.mul_sum, sum_ep_dvd hN ((n.val : ℤ) - (m.val : ℤ))]
    have hiff : ((N : ℤ) ∣ ((n.val : ℤ) - (m.val : ℤ))) ↔ m = n := by
      constructor
      · rintro ⟨c, hc⟩
        have hn := n.isLt
        have hm := m.isLt
        have hc0 : c = 0 := by
          rcases (by omega : c ≤ -1 ∨ c = 0 ∨ 1 ≤ c) with h | h | h
          · have : (N : ℤ) * c ≤ N * (-1) :=
              mul_le_mul_of_nonneg_left h (by positivity)
            omega
          · exact h
          · have : (N : ℤ) * 1 ≤ N * c :=
              mul_le_mul_of_nonneg_left h (by positivity)
            omega
        rw [hc0, mul_zero] at hc
        exact (Fin.ext (by omega)).symm
      · rintro rfl
        simp
    by_cases hmn : m = n
    · rw [if_pos ((hiff).mpr hmn), if_pos hmn]
    · rw [if_neg (fun h => hmn (hiff.mp h)), if_neg hmn, mul_zero]
  rw [Finset.sum_congr rfl fun m _ => step2 m, Finset.sum_ite_eq' Finset.univ n
    (fun m => v m * N), if_pos (Finset.mem_univ n)]
  field_simp

theorem sum_ep_odd_re {N : ℕ} (hN : 0 < N) (t : ℕ) (ht : t % 2 = 1) :
    (∑ k : Fin N, ep (Real.pi * k.val * t / N)).re = 1 := by
  have hNr : (N : ℝ) ≠ 0 := Nat.cast_ne_zero.mpr hN.ne'
  set ζ : ℂ := ep (Real.pi * t / N) with hζdef
  have hterm : ∀ k : Fin N, ep (Real.pi * k.val * t / N) = ζ ^ k.val := by
    intro k
    rw [hζdef, ep_pow]
    congr 1
    ring
  have hζN : ζ ^ N = -1 := by
    rw [hζdef, ep_pow]
    have harg : (N : ℝ) * (Real.pi * t / N) = t * Real.pi := by
      field_simp
      ring
    rw [harg, ← ep_pow, show ep Real.pi = -1 from Complex.exp_pi_mul_I]
    exact Odd.neg_one_pow (Nat.odd_iff.mpr ht)
  have hζ0 : ζ ≠ 0 := ep_ne_zero _
  have hζ1 : ζ ≠ 1 := by
    intro h
    rw [h, one_pow] at hζN
    exact (by norm_num : (1 : ℂ) ≠ -1) hζN
  have hζm1 : ζ - 1 ≠ 0 := sub_ne_zero.mpr hζ1
  have hS : (∑ k : Fin N, ζ ^ k.val) = -2 / (ζ - 1) := by
    rw [Fin.sum_univ_eq_sum_range (fun k => ζ ^ k) N, geom_sum_eq hζ1, hζN]
    norm_num
  have hconj : (starRingEnd ℂ) (∑ k : Fin N, ζ ^ k.val) = 2 * ζ / (ζ - 1) := by
    rw [map_sum]
    have hc : ∀ k : Fin N, (starRingEnd ℂ) (ζ ^ k.val) = (ζ⁻¹) ^ k.val := by
      intro k
      rw [map_pow, hζdef, ep_conj, ← ep_inv]
    rw [Finset.sum_congr rfl fun k _ => hc k,
      Fin.sum_univ_eq_sum_range (fun k => (ζ⁻¹) ^ k) N]
    have hζinv1 : ζ⁻¹ ≠ 1 := by
      intro h
      exact hζ1 (inv_eq_one.mp h)
    rw [geom_sum_eq hζinv1, inv_pow, hζN]
    have h1 : ζ⁻¹ - 1 = (1 - ζ) / ζ := by
      field_simp
    have h2 : ((-1 : ℂ))⁻¹ - 1 = -2 := by norm_num
    rw [h1, h2, div_div_eq_mul_div,
      div_eq_div_iff (sub_ne_zero.mpr (Ne.symm hζ1)) hζm1]
    ring
  have hsum2 : (∑ k : Fin N, ζ ^ k.val) + (starRingEnd ℂ) (∑ k : Fin N, ζ ^ k.val)
      = 2 := by
    rw [hconj, hS]
    field_simp
    ring
  rw [Complex.add_conj] at hsum2
  have h2 : (2 : ℝ) * (∑ k : Fin N, ζ ^ k.val).re = 2 := by
    have := congrArg Complex.re hsum2
    simpa using this
  have hre : (∑ k : Fin N, ζ ^ k.val).re = 1 := by linarith
  rw [Finset.sum_congr rfl fun k _ => hterm k]
  exact hre

/-! ### Round-trip of the one-dimensional engine (claim C1) -/

theorem ortho_ortho_apply {N : ℕ} (y : Fin N → ℝ) (k : Fin N) :
    _dct_ortho_norm (_dct_ortho_norm y) k =
      y k / ((if k.val = 0 then 4 else 2) * N) := by
  have hc : (0 : ℝ) ≤ (if k.val = 0 then (4 : ℝ) else 2) := by
    split <;> norm_num
  rw [_dct_ortho_norm_apply, _dct_ortho_norm_apply, div_div,
    Real.mul_self_sqrt (mul_nonneg hc (Nat.cast_nonneg N))]

theorem conj_fft_real {N : ℕ} (y : Fin N → ℝ) (k : Fin N) :
    (starRingEnd ℂ) (fft (fun i => ((y i : ℝ) : ℂ)) k) =
      ∑ m : Fin N, ((y m : ℝ) : ℂ) * ep (2 * Real.pi * m.val * k.val / N) := by
  rw [fft, map_sum]
  refine Finset.sum_congr rfl fun m _ => ?_
  rw [map_mul, Complex.conj_ofReal, ep_conj]
  congr 1
  ring_nf

theorem idct_dct_core {N : ℕ} (hN : 0 < N) (norm : Option String)
    (hnorm : norm = none ∨ norm = some "ortho") (x : Fin N → ℝ) :
    idctCore norm (dctCore norm x) = x := by
  have hNr : (N : ℝ) ≠ 0 := Nat.cast_ne_zero.mpr hN.ne'
  have hNc : (N : ℂ) ≠ 0 := Nat.cast_ne_zero.mpr hN.ne'
  show _dct_deinterleave (fun n => (ifft (fun k =>
      ((idctNormStage norm (dctCore norm x) k : ℝ) : ℂ) / _W4 N k.val * 2 * N)
      n).re) = x
  set v : Fin N → ℝ := _dct_interleave x with hv
  set vC : Fin N → ℂ := fun i => ((v i : ℝ) : ℂ) with hvC
  set V : Fin N → ℂ := fft vC with hV
  set Z : Fin N → ℂ := fun k =>
    ((idctNormStage norm (dctCore norm x) k : ℝ) : ℂ) / _W4 N k.val * 2 * N
    with hZ
  -- the normalization stage collapses to division by `f_k · N` in both cases
  have hstage : ∀ k : Fin N, idctNormStage norm (dctCore norm x) k
      = dctRaw x k / ((if k.val = 0 then 4 else 2) * N) := by
    intro k
    rcases hnorm with h | h <;> subst h <;>
      simp only [idctNormStage, dctCore, if_pos, if_neg, reduceCtorEq,
        Option.some.injEq, reduceIte] <;>
      exact ortho_ortho_apply _ k
  have hV0 : ∀ k : Fin N, k.val = 0 → V k = ((∑ m : Fin N, v m : ℝ) : ℂ) := by
    intro k hkv
    rw [hV, fft]
    simp only [hkv, Nat.cast_zero, mul_zero, neg_zero, zero_div, ep_zero, mul_one]
    rw [hvC]
    push_cast
    rfl
  have hXraw : ∀ k : Fin N, ((dctRaw x k : ℝ) : ℂ) =
      V k * _W4 N k.val + (starRingEnd ℂ) (V k * _W4 N k.val) := by
    intro k
    rw [dctRaw, ← hv, ← hvC, ← hV]
    exact (Complex.add_conj _).symm
  have hconjW4 : ∀ k : Fin N,
      (starRingEnd ℂ) (_W4 N k.val) / _W4 N k.val = ep (Real.pi * k.val / N) := by
    intro k
    rw [_W4_eq_ep, ep_conj, ep_div]
    congr 1
    ring
  have hz : ∀ k : Fin N, Z k =
      V k + (starRingEnd ℂ) (V k) * ep (Real.pi * k.val / N)
        - (if k = ⟨0, hN⟩ then ((∑ m : Fin N, v m : ℝ) : ℂ) else 0) := by
    intro k
    simp only [hZ]
    by_cases hk : k = ⟨0, hN⟩
    · have hkv : k.val = 0 := by rw [hk]
      have hr0 : dctRaw x k = 2 * (∑ m : Fin N, v m) := by
        rw [dctRaw, ← hv, ← hvC, ← hV]
        rw [show ((k.val : ℕ) : ℝ) = 0 by rw [hkv]; norm_num, _W4_zero, mul_one,
          hV0 k hkv]
        rw [Complex.ofReal_re]
      rw [if_pos hk, hstage k, if_pos hkv, hr0, hV0 k hkv,
        show ((k.val : ℕ) : ℝ) = 0 by rw [hkv]; norm_num, _W4_zero,
        show (Real.pi * (0:ℝ) / N) = 0 by ring, ep_zero, Complex.conj_ofReal]
      push_cast
      field_simp
      ring
    · have hkv : k.val ≠ 0 := fun h => hk (Fin.ext h)
      rw [if_neg hk, hstage k, if_neg hkv]
      have hcancel : ((dctRaw x k / (2 * N) : ℝ) : ℂ) / _W4 N k.val * 2 * N
          = ((dctRaw x k : ℝ) : ℂ) / _W4 N k.val := by
        have hW := _W4_ne_zero N (k.val : ℝ)
        push_cast
        field_simp
        ring
      rw [hcancel, hXraw k, map_mul, add_div,
        mul_div_cancel_right₀ (V k) (_W4_ne_zero N _),
        mul_div_assoc ((starRingEnd ℂ) (V k)) _ _, hconjW4 k, sub_zero]
  -- the de-rotated spectrum inverts to the interleaved input
  have hifft : ∀ n : Fin N, (ifft Z n).re = v n := by
    intro n
    show ((∑ k : Fin N, Z k * ep (2 * Real.pi * n.val * k.val / N)) / N).re = v n
    have hsplit : (∑ k : Fin N, Z k * ep (2 * Real.pi * n.val * k.val / N)) =
        (∑ k : Fin N, V k * ep (2 * Real.pi * n.val * k.val / N))
        + (∑ k : Fin N, (starRingEnd ℂ) (V k) * ep (Real.pi * k.val / N)
            * ep (2 * Real.pi * n.val * k.val / N))
        - (∑ k : Fin N, (if k = ⟨0, hN⟩ then ((∑ m : Fin N, v m : ℝ) : ℂ) else 0)
            * ep (2 * Real.pi * n.val * k.val / N)) := by
      rw [← Finset.sum_add_distrib, ← Finset.sum_sub_distrib]
      refine Finset.sum_congr rfl fun k _ => ?_
      rw [hz k]
      ring
    have hT1 : (∑ k : Fin N, V k * ep (2 * Real.pi * n.val * k.val / N))
        = ((v n : ℝ) : ℂ) * N := by
      have h := congrFun (ifft_fft hN vC) n
      rw [show ifft (fft vC) n = (∑ k : Fin N, fft vC k
          * ep (2 * Real.pi * n.val * k.val / N)) / N from rfl] at h
      rw [← hV] at h
      rw [div_eq_iff hNc] at h
      rw [h, hvC]
    have hT3 : (∑ k : Fin N, (if k = ⟨0, hN⟩ then ((∑ m : Fin N, v m : ℝ) : ℂ) else 0)
        * ep (2 * Real.pi * n.val * k.val / N)) = ((∑ m : Fin N, v m : ℝ) : ℂ) := by
      rw [Finset.sum_congr rfl fun k _ => by rw [ite_mul, zero_mul]]
      rw [Finset.sum_ite_eq' Finset.univ (⟨0, hN⟩ : Fin N)
        (fun k => ((∑ m : Fin N, v m : ℝ) : ℂ) * ep (2 * Real.pi * n.val * k.val / N)),
        if_pos (Finset.mem_univ _)]
      show ((∑ m : Fin N, v m : ℝ) : ℂ) * ep (2 * Real.pi * n.val * ((0:ℕ):ℝ) / N) = _
      rw [show (2 * Real.pi * (n.val:ℝ) * ((0:ℕ):ℝ) / N : ℝ) = 0 by push_cast; ring,
        ep_zero, mul_one]
    have hT2 : (∑ k : Fin N, (starRingEnd ℂ) (V k) * ep (Real.pi * k.val / N)
        * ep (2 * Real.pi * n.val * k.val / N)).re = ∑ m : Fin N, v m := by
      have hkform : ∀ k : Fin N, (starRingEnd ℂ) (V k) * ep (Real.pi * k.val / N)
          * ep (2 * Real.pi * n.val * k.val / N)
          = ∑ m : Fin N, ((v m : ℝ) : ℂ)
              * ep (Real.pi * k.val * ((2 * m.val + 2 * n.val + 1 : ℕ) : ℝ) / N) := by
        intro k
        rw [hV, hvC, conj_fft_real v k, Finset.sum_mul, Finset.sum_mul]
        refine Finset.sum_congr rfl fun m _ => ?_
        rw [mul_assoc, mul_assoc, ← ep_add, ← ep_add]
        congr 2
        push_cast
        ring
      rw [Finset.sum_congr rfl fun k _ => hkform k, Finset.sum_comm]
      rw [Finset.sum_congr rfl fun m _ => (Finset.mul_sum Finset.univ
        (fun k : Fin N => ep (Real.pi * k.val * ((2 * m.val + 2 * n.val + 1 : ℕ) : ℝ) / N))
        ((v m : ℝ) : ℂ)).symm]
      rw [Complex.re_sum]
      refine Finset.sum_congr rfl fun m _ => ?_
      rw [Complex.re_ofReal_mul,
        sum_ep_odd_re hN (2 * m.val + 2 * n.val + 1) (by omega), mul_one]
    rw [hsplit, hT1, hT3,
      show ((N : ℕ) : ℂ) = (((N : ℕ) : ℝ) : ℂ) from (Complex.ofReal_natCast N).symm,
      Complex.div_ofReal_re, Complex.sub_re, Complex.add_re, hT2,
      ← Complex.ofReal_mul, Complex.ofReal_re, Complex.ofReal_re]
    field_simp
  have hfun : (fun n => (ifft Z n).re) = v := funext hifft
  rw [hfun, hv]
  exact deinterleave_interleave x

/-- C1: for every real array, every valid axis (a rank-1 line has the valid
axes `-1` and `0`), and every supported norm setting (`none` or the
orthonormal marker `"ortho"`), `idct (dct x)` recovers `x` exactly in the
exact-real idealization, provided no target length `n` is requested. -/
theorem claim_c1_round_trip (N : ℕ) (x : Fin N → ℝ) (axis : ℤ)
    (norm : Option String) (haxis : axis = -1 ∨ axis = 0)
    (hnorm : norm = none ∨ norm = some "ortho") :
    (dct 2 none axis norm x).bind (fun y => idct 2 none axis norm y)
      = Except.ok x := by
  have hcanon : canonicalizeAxis axis 1 = Except.ok 0 := by
    rcases haxis with h | h <;> subst h <;> rfl
  have h1 : dct (N := N) 2 none axis norm x = Except.ok (dctCore norm x) := by
    rw [dct, if_pos rfl, hcanon]
    rfl
  rw [h1]
  show idct 2 none axis norm (dctCore norm x) = Except.ok x
  have h2 : idct (N := N) 2 none axis norm (dctCore norm x)
      = Except.ok (idctCore norm (dctCore norm x)) := by
    rw [idct, if_pos rfl, hcanon]
    rfl
  rw [h2]
  rcases Nat.eq_zero_or_pos N with hN0 | hNpos
  · subst hN0
    exact congrArg Except.ok (Subsingleton.elim _ _)
  · exact congrArg Except.ok (idct_dct_core hNpos norm hnorm x)

/-- C1 witness: the round trip at the concrete input `[1]` with axis `-1` and
no normalization. -/
theorem claim_c1_round_trip_witness :
    (((-1 : ℤ) = -1 ∨ (-1 : ℤ) = 0) ∧
      ((none : Option String) = none ∨ (none : Option String) = some "ortho")) ∧
    (dct 2 none (-1) none (fun _ : Fin 1 => (1 : ℝ))).bind
      (fun y => idct 2 none (-1) none y) = Except.ok (fun _ : Fin 1 => (1 : ℝ)) :=
  ⟨⟨Or.inl rfl, Or.inl rfl⟩,
    claim_c1_round_trip 1 (fun _ => 1) (-1) none (Or.inl rfl) (Or.inl rfl)⟩

/-! ### The idct normalization-pass count (claim C4) and norm fall-through
(claim C5) -/

theorem sqrt_four : Real.sqrt 4 = 2 := by
  rw [show (4 : ℝ) = 2 ^ 2 by norm_num, Real.sqrt_sq (by norm_num : (0:ℝ) ≤ 2)]

/-- C4 counterexample: with the orthonormal marker, `idct`'s normalization
stage applies `_dct_ortho_norm` once, not twice — already at the singleton
array `[1]` the claimed double application gives a different value. -/
theorem claim_c4_counterexample :
    idctNormStage (some "ortho") (fun _ : Fin 1 => (1 : ℝ)) ≠
      _dct_ortho_norm (_dct_ortho_norm (fun _ : Fin 1 => (1 : ℝ))) := by
  intro h
  have h0 := congrFun h ⟨0, one_pos⟩
  have hL : idctNormStage (some "ortho") (fun _ : Fin 1 => (1 : ℝ)) ⟨0, one_pos⟩
      = 1 / 2 := by
    rw [idctNormStage, if_neg (by simp), _dct_ortho_norm_apply]
    norm_num [sqrt_four]
  have hR : _dct_ortho_norm (_dct_ortho_norm (fun _ : Fin 1 => (1 : ℝ)))
      ⟨0, one_pos⟩ = 1 / 4 := by
    rw [ortho_ortho_apply]
    norm_num
  rw [hL, hR] at h0
  norm_num at h0

/-- C4 amended: `idct` applies the orthonormal de-scaling pass once
unconditionally and a second time when `norm` is `None`: exactly two
applications when `norm` is unset and exactly one when `norm` is the
orthonormal marker (or any other non-`None` value). -/
theorem claim_c4_amended (N : ℕ) (norm : Option String) (x : Fin N → ℝ) :
    idctNormStage norm x =
      _dct_ortho_norm^[if norm = none then 2 else 1] x := by
  by_cases h : norm = none
  · rw [if_pos h, idctNormStage, if_pos h]
    rfl
  · rw [if_neg h, idctNormStage, if_neg h]
    rfl

theorem idctCore_one (norm : Option String) (x : Fin 1 → ℝ) :
    idctCore norm x = fun _ => idctNormStage norm x 0 * 2 := by
  funext i
  show _dct_deinterleave (fun n => (ifft (fun k =>
      ((idctNormStage norm x k : ℝ) : ℂ) / _W4 1 k.val * 2 * (1:ℕ)) n).re) i = _
  obtain ⟨j, hj⟩ := i
  rw [_dct_deinterleave_mk _ j hj]
  have hj0 : j = 0 := by omega
  subst hj0
  rw [if_pos rfl]
  show (ifft (fun k => ((idctNormStage norm x k : ℝ) : ℂ) / _W4 1 k.val * 2 * (1:ℕ))
    ⟨0, by omega⟩).re = _
  show ((∑ k : Fin 1, ((idctNormStage norm x k : ℝ) : ℂ) / _W4 1 k.val * 2 * (1:ℕ)
      * ep (2 * Real.pi * ((0:ℕ):ℝ) * k.val / (1:ℕ))) / ((1:ℕ):ℂ)).re = _
  rw [Fin.sum_univ_one]
  show ((((idctNormStage norm x 0 : ℝ) : ℂ) / _W4 1 ((0:ℕ):ℝ) * 2 * (1:ℕ)
      * ep (2 * Real.pi * ((0:ℕ):ℝ) * ((0:ℕ):ℝ) / (1:ℕ))) / ((1:ℕ):ℂ)).re = _
  rw [show ((0:ℕ):ℝ) = 0 by norm_num, _W4_zero,
    show (2 * Real.pi * (0:ℝ) * (0:ℝ) / ((1:ℕ):ℝ)) = 0 by ring, ep_zero]
  push_cast
  rw [show ((idctNormStage norm x 0 : ℝ) : ℂ) / 1 * 2 * 1 * 1 / 1
      = ((idctNormStage norm x 0 * 2 : ℝ) : ℂ) by push_cast; ring]
  rw [Complex.ofReal_re]

/-- C5 counterexample: `idct` with the unrecognized norm value `"foo"` does
not agree with `idct` with `norm` unset — already on the singleton array `[1]`
the results differ (`1` versus `1/2`), because the unrecognized value skips
the `norm is None` extra de-scaling pass. -/
theorem claim_c5_counterexample :
    idct 2 none (-1) (some "foo") (fun _ : Fin 1 => (1 : ℝ)) ≠
      idct 2 none (-1) none (fun _ : Fin 1 => (1 : ℝ)) := by
  intro h
  have h1 : idct (N := 1) 2 none (-1) (some "foo") (fun _ => 1)
      = Except.ok (idctCore (some "foo") (fun _ => 1)) := by
    rw [idct, if_pos rfl, show canonicalizeAxis (-1) 1 = Except.ok 0 from rfl]
    rfl
  have h2 : idct (N := 1) 2 none (-1) none (fun _ => 1)
      = Except.ok (idctCore none (fun _ => 1)) := by
    rw [idct, if_pos rfl, show canonicalizeAxis (-1) 1 = Except.ok 0 from rfl]
    rfl
  rw [h1, h2] at h
  have h3 := congrFun (Except.ok.inj h) (⟨0, Nat.one_pos⟩ : Fin 1)
  simp only [idctCore_one] at h3
  have h4 : idctNormStage (some "foo") (fun _ : Fin 1 => (1 : ℝ)) 0 * 2
      = idctNormStage none (fun _ : Fin 1 => (1 : ℝ)) 0 * 2 := h3
  have hfoo : idctNormStage (some "foo") (fun _ : Fin 1 => (1 : ℝ)) 0 = 1 / 2 := by
    rw [idctNormStage, if_neg (by simp), _dct_ortho_norm_apply]
    norm_num [sqrt_four]
  have hnone : idctNormStage none (fun _ : Fin 1 => (1 : ℝ)) 0 = 1 / 4 := by
    rw [idctNormStage, if_pos rfl, ortho_ortho_apply]
    norm_num
  rw [hfoo, hnone] at h4
  norm_num at h4

/-- C5 amended: `dct` with any norm value other than the `"ortho"` marker
proceeds exactly as with `norm` unset; `idct` with any norm value other than
`None` (recognized or not) applies a single de-scaling pass, so an
unrecognized value makes `idct` agree with `norm="ortho"`, not with `None`. -/
theorem claim_c5_amended (N : ℕ) (x : Fin N → ℝ) (n : Option ℕ) (axis : ℤ)
    (norm : Option String) :
    (norm ≠ some "ortho" → dct 2 n axis norm x = dct 2 n axis none x) ∧
    (norm ≠ none → idct 2 n axis norm x = idct 2 n axis (some "ortho") x) := by
  constructor
  · intro hn
    have hcc : ∀ {M : ℕ} (y : Fin M → ℝ), dctCore norm y = dctCore none y := by
      intro M y
      show (if norm = some "ortho" then _ else dctRaw y)
        = (if (none : Option String) = some "ortho" then _ else dctRaw y)
      rw [if_neg hn, if_neg (by simp)]
    unfold dct
    rw [if_pos rfl, if_pos rfl]
    congr 1
    funext _
    cases n with
    | none => exact hcc x
    | some m => exact hcc (padTo m x)
  · intro hn
    have hcc : ∀ {M : ℕ} (y : Fin M → ℝ), idctCore norm y
        = idctCore (some "ortho") y := by
      intro M y
      show _dct_deinterleave (fun nn => (ifft (fun k =>
          ((idctNormStage norm y k : ℝ) : ℂ) / _W4 M k.val * 2 * M) nn).re) = _
      rw [show idctNormStage (N := M) norm = idctNormStage (some "ortho") by
        funext z k
        show _dct_ortho_norm (if norm = none then _dct_ortho_norm z else z) k
          = _dct_ortho_norm
              (if (some "ortho" : Option String) = none then _dct_ortho_norm z else z) k
        rw [if_neg hn, if_neg (by simp)]]
      rfl
    unfold idct
    rw [if_pos rfl, if_pos rfl]
    congr 1
    funext _
    cases n with
    | none => exact hcc x
    | some m => exact hcc (padTo m x)

/-- C5 amended witness: the two equalities at the concrete unrecognized value
`"abc"`, input `[1]`, no target length, axis `0`. -/
theorem claim_c5_amended_witness :
    ((some "abc" : Option String) ≠ some "ortho") ∧
    ((some "abc" : Option String) ≠ none) ∧
    dct 2 none 0 (some "abc") (fun _ : Fin 1 => (1 : ℝ))
      = dct 2 none 0 none (fun _ : Fin 1 => (1 : ℝ)) ∧
    idct 2 none 0 (some "abc") (fun _ : Fin 1 => (1 : ℝ))
      = idct 2 none 0 (some "ortho") (fun _ : Fin 1 => (1 : ℝ)) :=
  ⟨by simp, by simp,
    (claim_c5_amended 1 (fun _ => 1) none 0 (some "abc")).1 (by simp),
    (claim_c5_amended 1 (fun _ => 1) none 0 (some "abc")).2 (by simp)⟩

/-! ### Padding and truncation (claim C8) -/

/-- Modelled from the spec: the slice `x[:m]` (a take of the leading `m`
entries along the axis). -/
def takeLine {α : Type} {N : ℕ} (m : ℕ) (h : m ≤ N) (x : Fin N → α) :
    Fin m → α :=
  fun i => x ⟨i.val, lt_of_lt_of_le i.isLt h⟩

/-- C8: requesting `n = N+2` equals transforming the input with two zeros
appended at the end of the axis, and (for any length `N = M+3 > 2`)
requesting `n = N-2 = M+1` equals transforming the input with its last two
entries dropped. -/
theorem claim_c8_pad_truncate :
    (∀ (N : ℕ) (x : Fin N → ℝ) (axis : ℤ) (norm : Option String),
      dct 2 (some (N + 2)) axis norm x =
        dct 2 none axis norm (concatLine x (fun _ : Fin 2 => (0 : ℝ)))) ∧
    (∀ (M : ℕ) (x : Fin (M + 3) → ℝ) (axis : ℤ) (norm : Option String),
      dct 2 (some (M + 1)) axis norm x =
        dct 2 none axis norm (takeLine (M + 1) (by omega) x)) := by
  constructor
  · intro N x axis norm
    rfl
  · intro M x axis norm
    unfold dct
    rw [if_pos rfl, if_pos rfl]
    congr 1
    funext _
    refine congrArg (dctCore norm) (funext fun i => ?_)
    obtain ⟨j, hj⟩ := i
    show (if h : j < M + 3 then x ⟨j, h⟩ else 0) = x ⟨j, by omega⟩
    rw [dif_pos (by omega : j < M + 3)]

/-! ### Rank-2 arrays and the 2-D fast path -/

/-- A rank-2 array of fixed shape. -/
def Mat (N1 N2 : ℕ) (α : Type) : Type := Fin N1 → Fin N2 → α

/-- Apply a one-line operation along axis 0 (to each column). -/
def mapCols {N1 M1 N2 : ℕ} {α β : Type} (f : (Fin N1 → α) → Fin M1 → β)
    (M : Mat N1 N2 α) : Mat M1 N2 β :=
  fun i j => f (fun i' => M i' j) i

/-- Apply a one-line operation along axis 1 (to each row). -/
def mapRows {N1 N2 M2 : ℕ} {α β : Type} (f : (Fin N2 → α) → Fin M2 → β)
    (M : Mat N1 N2 α) : Mat N1 M2 β :=
  fun i j => f (M i) j

/-- Modelled from the spec: `jnp.roll(y, shift=1, axis=a)` on a line —
`out[i] = y[(i-1) mod M]`. -/
def rollOne {α : Type} {M : ℕ} (y : Fin M → α) : Fin M → α :=
  fun i => y ⟨(i.val + M - 1) % M, by
    have h := i.isLt
    exact Nat.mod_lt _ (by omega)⟩

/-- Interleave along a canonical axis of a rank-2 array. -/
def interleaveAx {N1 N2 : ℕ} {α : Type} (a : ℕ) (M : Mat N1 N2 α) : Mat N1 N2 α :=
  if a = 0 then mapCols _dct_interleave M else mapRows _dct_interleave M

/-- Modelled from the spec: `jnp.fft.fftn` transforms along each listed axis. -/
def fftAx {N1 N2 : ℕ} (a : ℕ) (M : Mat N1 N2 ℂ) : Mat N1 N2 ℂ :=
  if a = 0 then mapCols fft M else mapRows fft M

/-- Modelled from the spec: `jnp.fft.fftn(v, axes=axes)`. -/
def fftn {N1 N2 : ℕ} (axes : List ℕ) (M : Mat N1 N2 ℂ) : Mat N1 N2 ℂ :=
  axes.foldl (fun acc a => fftAx a acc) M

/-- Modelled from the spec: `jnp.flip` along a canonical axis. -/
def flipAx {N1 N2 : ℕ} {α : Type} (a : ℕ) (M : Mat N1 N2 α) : Mat N1 N2 α :=
  if a = 0 then mapCols revLine M else mapRows revLine M

/-- Modelled from the spec: `jnp.roll(_, shift=1, axis=a)`. -/
def rollAx {N1 N2 : ℕ} {α : Type} (a : ℕ) (M : Mat N1 N2 α) : Mat N1 N2 α :=
  if a = 0 then mapCols rollOne M else mapRows rollOne M

/-- Source `_dct_ortho_norm(out, axis)` on a rank-2 array. -/
def orthoAx {N1 N2 : ℕ} (a : ℕ) (M : Mat N1 N2 ℝ) : Mat N1 N2 ℝ :=
  if a = 0 then mapCols _dct_ortho_norm M else mapRows _dct_ortho_norm M

/-- The length of the given canonical axis. -/
def dimAx (a N1 N2 : ℕ) : ℕ := if a = 0 then N1 else N2

/-- The broadcast twiddle index `k` along the given canonical axis at a
position. -/
def idxAx {N1 N2 : ℕ} (a : ℕ) (i : Fin N1) (j : Fin N2) : ℕ :=
  if a = 0 then i.val else j.val

/-- Source `_dct2` numeric kernel (after canonicalizing `axis1 ↦ c1`,
`axis2 ↦ c2`): interleave both axes, one joint FFT, then the combined twiddle
with the mirror term obtained by a roll-and-flip of the spectrum along the
second axis, `2 · Re`, and the two per-axis ortho passes when requested. -/
def _dct2_run {N1 N2 : ℕ} (c1 c2 : ℕ) (norm : Option String) (x : Mat N1 N2 ℝ) :
    Mat N1 N2 ℝ :=
  let v := interleaveAx c2 (interleaveAx c1 x)
  let V := fftn [c1, c2] (fun i j => ((v i j : ℝ) : ℂ))
  let out : Mat N1 N2 ℝ := fun i j =>
    2 * (_W4 (dimAx c1 N1 N2) (idxAx c1 i j)
      * (_W4 (dimAx c2 N1 N2) (idxAx c2 i j) * V i j
        + _W4 (dimAx c2 N1 N2) (-(idxAx c2 i j : ℝ))
          * rollAx c2 (flipAx c2 V) i j)).re
  if norm = some "ortho" then orthoAx c2 (orthoAx c1 out) else out

/-- A rank-2 array carrying its shape. -/
def Arr2 : Type := Σ N1 N2 : ℕ, Mat N1 N2 ℝ

/-- Source `_dct2`: canonicalize the two axes (reported errors propagate),
then run the 2-D kernel. -/
def _dct2 (ax1 ax2 : ℤ) (norm : Option String) (X : Arr2) :
    Except String Arr2 := do
  let c1 ← canonicalizeAxis ax1 2
  let c2 ← canonicalizeAxis ax2 2
  return ⟨X.1, X.2.1, _dct2_run c1 c2 norm X.2.2⟩

/-- Source `dct` kernel with its optional pad/truncate, on one line. -/
def dct1n {K : ℕ} (n : Option ℕ) (norm : Option String) (y : Fin K → ℝ) :
    Fin (n.getD K) → ℝ :=
  match n with
  | none => dctCore norm y
  | some m => dctCore norm (padTo m y)

/-- Source `idct` kernel with its optional pad/truncate, on one line. -/
def idct1n {K : ℕ} (n : Option ℕ) (norm : Option String) (y : Fin K → ℝ) :
    Fin (n.getD K) → ℝ :=
  match n with
  | none => idctCore norm y
  | some m => idctCore norm (padTo m y)

/-- Source `dct` on a rank-2 array: type check, axis canonicalization, then
the padded one-dimensional kernel along the chosen axis. -/
def dct2d (type : ℤ) (n : Option ℕ) (axis : ℤ) (norm : Option String)
    (X : Arr2) : Except String Arr2 :=
  if type = 2 then
    (canonicalizeAxis axis 2).map (fun c =>
      if c = 0 then ⟨n.getD X.1, X.2.1, mapCols (dct1n n norm) X.2.2⟩
      else ⟨X.1, n.getD X.2.1, mapRows (dct1n n norm) X.2.2⟩)
  else .error "NotImplementedError: Only DCT type 2 is implemented."

/-- Source `idct` on a rank-2 array. -/
def idct2d (type : ℤ) (n : Option ℕ) (axis : ℤ) (norm : Option String)
    (X : Arr2) : Except String Arr2 :=
  if type = 2 then
    (canonicalizeAxis axis 2).map (fun c =>
      if c = 0 then ⟨n.getD X.1, X.2.1, mapCols (idct1n n norm) X.2.2⟩
      else ⟨X.1, n.getD X.2.1, mapRows (idct1n n norm) X.2.2⟩)
  else .error "NotImplementedError: Only DCT type 2 is implemented."

/-! ### The `dctn` / `idctn` drivers

The drivers' control flow is rank-generic; the rank-dependent collaborators
(the pad stage over `range(ndim)`, the 1-D and 2-D kernels) are bundled in a
model so the same control flow is settled for rank-2 and rank-0 arrays. -/

structure NDModel where
  Arr : Type
  ndim : ℕ
  applyPads : List (ℤ × ℕ) → Arr → Arr
  dct1 : Option ℕ → ℤ → Option String → Arr → Except String Arr
  dct2op : ℤ → ℤ → Option String → Arr → Except String Arr
  idct1 : Option ℕ → ℤ → Option String → Arr → Except String Arr

/-- Source `dctn` block loop: `for axes_block in [axes[i:i+2] ...]` composes
the high-dimensional DCT from 2-D and 1-D DCTs; each recursive `dctn` call on
a block of one or two axes (with `s=None`) is its 1-D or 2-D kernel. -/
def dctnGo (M : NDModel) (norm : Option String) :
    List ℤ → M.Arr → Except String M.Arr
  | [], x => .ok x
  | [a], x => M.dct1 none a norm x
  | [a, b], x => M.dct2op a b norm x
  | a :: b :: rest, x => do
      let x1 ← M.dct2op a b norm x
      dctnGo M norm rest x1

/-- Source `dctn`: type check; default axes `range(ndim)`; a single axis
delegates to `dct` with `n = s[0]`; otherwise the `s`-driven pad stage builds
`ns = dict(zip(axes, s))` from the RAW axes and pads every array dimension
found in it, then the 2-D fast path or the block loop runs. -/
def dctn (M : NDModel) (type : ℤ) (s : Option (List ℕ))
    (axes : Option (List ℤ)) (norm : Option String) (x : M.Arr) :
    Except String M.Arr :=
  if type = 2 then
    match axes.getD ((List.range M.ndim).map Int.ofNat) with
    | [a] =>
        match s with
        | none => M.dct1 none a norm x
        | some l =>
            match l.head? with
            | some v => M.dct1 (some v) a norm x
            | none => .error "IndexError: list index out of range"
    | axs =>
        let x' := match s with
          | none => x
          | some l => M.applyPads (axs.zip l) x
        dctnGo M norm axs x'
  else .error "NotImplementedError: Only DCT type 2 is implemented."

/-- Source `idctn`: as `dctn` but the multi-axis path is a sequential loop of
1-D inverse transforms (`for axis in axes: x = idct(x, axis=axis, norm)`). -/
def idctn (M : NDModel) (type : ℤ) (s : Option (List ℕ))
    (axes : Option (List ℤ)) (norm : Option String) (x : M.Arr) :
    Except String M.Arr :=
  if type = 2 then
    match axes.getD ((List.range M.ndim).map Int.ofNat) with
    | [a] =>
        match s with
        | none => M.idct1 none a norm x
        | some l =>
            match l.head? with
            | some v => M.idct1 (some v) a norm x
            | none => .error "IndexError: list index out of range"
    | axs =>
        let x' := match s with
          | none => x
          | some l => M.applyPads (axs.zip l) x
        axs.foldlM (fun acc a => M.idct1 none a norm acc) x'
  else .error "NotImplementedError: Only DCT type 2 is implemented."

/-- Last-wins key lookup: `dict(zip(axes, s))` keeps the last value bound to a
duplicated key. -/
def lookupLast (a : ℤ) (ns : List (ℤ × ℕ)) : Option ℕ :=
  (ns.reverse.find? (fun p => p.1 = a)).map (·.2)

/-- Source `dctn`/`idctn` pad stage on a rank-2 array: one `lax.pad` covering
both dimensions, where dimension `a ∈ range(ndim)` is padded to `ns[a]` when
the RAW key `a` is in `ns` and left alone otherwise. -/
def applyPads2 (ns : List (ℤ × ℕ)) (X : Arr2) : Arr2 :=
  ⟨(lookupLast 0 ns).getD X.1, (lookupLast 1 ns).getD X.2.1,
    fun i j =>
      if h1 : i.val < X.1 then
        (if h2 : j.val < X.2.1 then X.2.2 ⟨i.val, h1⟩ ⟨j.val, h2⟩ else 0)
      else 0⟩

/-- The rank-2 instance of the driver collaborators. -/
def arr2Model : NDModel where
  Arr := Arr2
  ndim := 2
  applyPads := applyPads2
  dct1 := fun n axis norm X => dct2d 2 n axis norm X
  dct2op := fun a b norm X => _dct2 a b norm X
  idct1 := fun n axis norm X => idct2d 2 n axis norm X

/-- The rank-0 instance: there is nothing to pad (`range(0)` is empty) and any
axis fails canonicalization against rank 0, so the 1-D and 2-D kernels always
report the canonicalization error. -/
def arr0Model : NDModel where
  Arr := ℝ
  ndim := 0
  applyPads := fun _ x => x
  dct1 := fun _ axis _ x => (canonicalizeAxis axis 0).map (fun _ => x)
  dct2op := fun a _ _ x => (canonicalizeAxis a 0).map (fun _ => x)
  idct1 := fun _ axis _ x => (canonicalizeAxis axis 0).map (fun _ => x)

theorem applyPads2_nil (X : Arr2) : applyPads2 [] X = X := by
  obtain ⟨n1, n2, m⟩ := X
  show (⟨n1, n2, fun i j =>
    if h1 : i.val < n1 then
      (if h2 : j.val < n2 then m ⟨i.val, h1⟩ ⟨j.val, h2⟩ else 0)
    else 0⟩ : Arr2) = ⟨n1, n2, m⟩
  have hm : (fun (i : Fin n1) (j : Fin n2) =>
      if h1 : i.val < n1 then
        (if h2 : j.val < n2 then m ⟨i.val, h1⟩ ⟨j.val, h2⟩ else 0)
      else 0) = m := by
    funext i j
    rw [dif_pos i.isLt, dif_pos j.isLt]
  exact congrArg (fun z => (⟨n1, n2, z⟩ : Arr2)) hm

/-- C10: a call to `dctn` or `idctn` with an empty axes sequence — including
the default `axes=None` on a rank-0 array, where `range(0)` is empty — returns
the input unchanged once the type check passes: no padding (the pad dictionary
is empty), no transform, and no error. -/
theorem claim_c10_empty_axes :
    (∀ (s : Option (List ℕ)) (norm : Option String) (X : Arr2),
        dctn arr2Model 2 s (some []) norm X = Except.ok X) ∧
    (∀ (s : Option (List ℕ)) (norm : Option String) (X : Arr2),
        idctn arr2Model 2 s (some []) norm X = Except.ok X) ∧
    (∀ (s : Option (List ℕ)) (norm : Option String) (x : ℝ),
        dctn arr0Model 2 s none norm x = Except.ok x) ∧
    (∀ (s : Option (List ℕ)) (norm : Option String) (x : ℝ),
        idctn arr0Model 2 s none norm x = Except.ok x) := by
  refine ⟨fun s norm X => ?_, fun s norm X => ?_, fun s norm x => ?_,
    fun s norm x => ?_⟩
  · cases s with
    | none => rfl
    | some l =>
        show Except.ok (applyPads2 (List.zip [] l) X) = Except.ok X
        rw [show List.zip ([] : List ℤ) l = [] from rfl, applyPads2_nil]
  · cases s with
    | none => rfl
    | some l =>
        show Except.ok (applyPads2 (List.zip [] l) X) = Except.ok X
        rw [show List.zip ([] : List ℤ) l = [] from rfl, applyPads2_nil]
  · cases s with
    | none => rfl
    | some l => rfl
  · cases s with
    | none => rfl
    | some l => rfl

/-- C6 (code-bug evaluation): at the failing input — a 2×2 array, `s=(3,3)`,
`axes=(-1,-2)` — the `s`-driven pad stage looks the raw negative axes up in
`ns` built over `range(ndim)` keys, finds nothing, and pads no axis: the
result keeps shape (2,2), whereas the same call with the canonical axes
`(1,0)` pads both axes to shape (3,3) as the claim (and the docstring of `s`)
promises. -/
theorem claim_c6_negative_axes_bug_eval :
    (dctn arr2Model 2 (some [3, 3]) (some [-1, -2]) none
        ⟨2, 2, fun _ _ => (1 : ℝ)⟩).map (fun X => (X.1, X.2.1))
      = Except.ok (2, 2) ∧
    (dctn arr2Model 2 (some [3, 3]) (some [1, 0]) none
        ⟨2, 2, fun _ _ => (1 : ℝ)⟩).map (fun X => (X.1, X.2.1))
      = Except.ok (3, 3) :=
  ⟨rfl, rfl⟩

/-- C7 counterexample: `dctn` on a 2×2 array with `axes=(0,1)` but `s=(5,)` of
mismatched length reports no error at all — it pads axis 0 to 5, silently
ignores the missing entry for axis 1, and returns a (5,2)-shaped result,
contradicting the claim that an error is reported before any transform
stage runs. -/
theorem claim_c7_counterexample :
    (dctn arr2Model 2 (some [5]) (some [0, 1]) none
        ⟨2, 2, fun _ _ => (1 : ℝ)⟩).map (fun X => (X.1, X.2.1))
      = Except.ok (5, 2) :=
  rfl

/-- C7 amended: `dctn` and `idctn` perform no validation of `s` against
`axes`: when `s` is shorter than `axes`, `zip` silently truncates, the listed
axes without an `s` entry are left unpadded, and the transform proceeds
without any reported error. -/
theorem claim_c7_amended (N1 N2 m : ℕ) (norm : Option String)
    (x : Mat N1 N2 ℝ) :
    dctn arr2Model 2 (some [m]) (some [0, 1]) norm ⟨N1, N2, x⟩
      = Except.ok ⟨m, N2, _dct2_run 0 1 norm
          (applyPads2 [((0 : ℤ), m)] ⟨N1, N2, x⟩).2.2⟩ ∧
    idctn arr2Model 2 (some [m]) (some [0, 1]) norm ⟨N1, N2, x⟩
      = Except.ok ⟨m, N2, mapRows (idctCore norm) (mapCols (idctCore norm)
          (applyPads2 [((0 : ℤ), m)] ⟨N1, N2, x⟩).2.2)⟩ :=
  ⟨rfl, rfl⟩

/-! ### Dtype shadow semantics of `idct` (claim C9)

The exact-real value model erases machine precision, so the dtype aspect of
`idct` is embedded separately: one dtype per array, one step per source
statement. -/

inductive DType where
  | float32 : DType
  | float64 : DType
  | complex64 : DType
  | complex128 : DType
deriving DecidableEq

/-- Modelled from the spec: `astype` yields the target dtype. -/
def astypeD (_source target : DType) : DType := target

/-- Modelled from the spec: `promote_dtypes_complex` promotes a real dtype to
the complex dtype of the same precision. -/
def promoteComplexD : DType → DType
  | .float32 => .complex64
  | .float64 => .complex128
  | d => d

/-- Modelled from the spec: `.real` of a complex array has the real dtype of
the same precision. -/
def realPartD : DType → DType
  | .complex64 => .float32
  | .complex128 => .float64
  | d => d

/-- Shadow dtype semantics of `idct`, one step per source statement: the
`astype(jnp.float32)` cast, the dtype-preserving de-scaling passes, the
`float32` twiddle index `k`, the complex promotion in `_W4`, the
`astype(w4.dtype)` cast, the dtype-preserving division / scaling / `ifft`,
the final `.real`, and the dtype-preserving de-interleave. -/
def idctD (d : DType) : DType :=
  let d1 := astypeD d DType.float32
  let d2 := d1
  let dk := DType.float32
  let dw := promoteComplexD dk
  let d3 := astypeD d2 dw
  let d4 := d3
  let d5 := d4
  realPartD d5

/-- Shadow dtype semantics of `idctn`: a single axis delegates to `idct`; the
multi-axis path pads (dtype-preserving) and loops `idct` over the axes. -/
def idctnD (axes : List ℤ) (d : DType) : DType :=
  match axes with
  | [_] => idctD d
  | axs => axs.foldl (fun acc _ => idctD acc) d

theorem foldl_idctD (l : List ℤ) :
    l.foldl (fun acc (_ : ℤ) => idctD acc) DType.float32 = DType.float32 := by
  induction l with
  | nil => rfl
  | cons b t ih => exact ih

/-- C9: `idct` returns a `float32` array for every input dtype (in particular
every real floating dtype, double precision included), because it
unconditionally casts the working array to `float32` before de-normalization
and the pipeline then lands in `complex64` whose real part is `float32`; and
`idctn` inherits this whenever at least one axis is transformed. -/
theorem claim_c9_idct_float32 :
    (∀ d : DType, idctD d = DType.float32) ∧
    (∀ (d : DType) (a : ℤ) (rest : List ℤ),
        idctnD (a :: rest) d = DType.float32) := by
  refine ⟨fun d => rfl, fun d a rest => ?_⟩
  cases rest with
  | nil => rfl
  | cons b r => exact foldl_idctD r

/-! ### Index bookkeeping for the 2-D equivalence (claim C2) -/

/-- The interleave permutation on indices: position `i` of the interleaved
line reads position `2i` (first half) or `2N-1-2i` (second half) of the
input. -/
def interleaveIdx {N : ℕ} (i : Fin N) : Fin N :=
  if h : 2 * i.val < N then ⟨2 * i.val, h⟩
  else ⟨2 * N - 1 - 2 * i.val, by have := i.isLt; omega⟩

theorem interleave_apply' {α : Type} {N : ℕ} (y : Fin N → α) (i : Fin N) :
    _dct_interleave y i = y (interleaveIdx i) := by
  obtain ⟨j, hj⟩ := i
  rw [_dct_interleave_mk y j hj]
  exact (apply_dite y _ _ _).symm

/-- The mirror index `(-k) mod M` produced by the roll-and-flip of the
spectrum. -/
def negIdx {M : ℕ} (k : Fin M) : Fin M :=
  ⟨(M - k.val) % M, Nat.mod_lt _ (by have := k.isLt; omega)⟩

theorem roll_flip_apply {α : Type} {M : ℕ} (y : Fin M → α) (j : Fin M) :
    rollOne (revLine y) j = y (negIdx j) := by
  refine congrArg y (Fin.ext ?_)
  show M - 1 - ((j.val + M - 1) % M) = (M - j.val) % M
  have hjlt := j.isLt
  by_cases hj : j.val = 0
  · rw [hj, Nat.mod_eq_of_lt (by omega : 0 + M - 1 < M), Nat.sub_zero,
      Nat.mod_self]
    omega
  · rw [show j.val + M - 1 = (j.val - 1) + M by omega, Nat.add_mod_right,
      Nat.mod_eq_of_lt (by omega : j.val - 1 < M),
      Nat.mod_eq_of_lt (by omega : M - j.val < M)]
    omega

theorem negIdx_negIdx {M : ℕ} (k : Fin M) : negIdx (negIdx k) = k := by
  have hk := k.isLt
  refine Fin.ext ?_
  show (M - (M - k.val) % M) % M = k.val
  by_cases hk0 : k.val = 0
  · rw [hk0, Nat.sub_zero, Nat.mod_self, Nat.sub_zero, Nat.mod_self]
  · rw [Nat.mod_eq_of_lt (by omega : M - k.val < M),
      Nat.mod_eq_of_lt (by omega : M - (M - k.val) < M)]
    omega

theorem negIdx_val {M : ℕ} (k : Fin M) :
    (negIdx k).val = if k.val = 0 then 0 else M - k.val := by
  show (M - k.val) % M = _
  have hk := k.isLt
  by_cases hk0 : k.val = 0
  · rw [if_pos hk0, hk0, Nat.sub_zero, Nat.mod_self]
  · rw [if_neg hk0, Nat.mod_eq_of_lt (by omega)]

theorem ep_eq_of_add_int (a b : ℝ) (c : ℤ) (h : a = b + 2 * Real.pi * c) :
    ep a = ep b := by
  rw [h, ep_add, ep_int_two_pi, mul_one]

theorem _W4_neg (N : ℕ) (k : ℝ) :
    _W4 N (-k) = (starRingEnd ℂ) (_W4 N k) := by
  rw [_W4_eq_ep, _W4_eq_ep, ep_conj]
  congr 1
  ring

theorem fft_conj {M : ℕ} (y : Fin M → ℂ) (k : Fin M) :
    fft (fun m => (starRingEnd ℂ) (y m)) k
      = (starRingEnd ℂ) (fft y (negIdx k)) := by
  rw [fft, fft, map_sum]
  refine Finset.sum_congr rfl fun m _ => ?_
  rw [map_mul, ep_conj]
  refine congrArg (fun z => (starRingEnd ℂ) (y m) * z) ?_
  refine ep_eq_of_add_int _ _ (if k.val = 0 then 0 else -(m.val : ℤ)) ?_
  have hk := k.isLt
  have hMr : (M : ℝ) ≠ 0 := Nat.cast_ne_zero.mpr (by omega)
  rw [negIdx_val]
  by_cases hk0 : k.val = 0
  · rw [if_pos hk0, if_pos hk0, hk0]
    push_cast
    ring
  · rw [if_neg hk0, if_neg hk0, Nat.cast_sub (le_of_lt hk)]
    push_cast
    field_simp
    ring

theorem fft_const_mul {M : ℕ} (y : Fin M → ℂ) (c : ℂ) (k : Fin M) :
    fft (fun m => c * y m) k = c * fft y k := by
  rw [fft, fft, Finset.mul_sum]
  exact Finset.sum_congr rfl fun m _ => by ring

theorem fft_mul_const {M : ℕ} (y : Fin M → ℂ) (c : ℂ) (k : Fin M) :
    fft (fun m => y m * c) k = fft y k * c := by
  rw [fft, fft, Finset.sum_mul]
  exact Finset.sum_congr rfl fun m _ => by ring

theorem fft_add {M : ℕ} (y z : Fin M → ℂ) (k : Fin M) :
    fft (fun m => y m + z m) k = fft y k + fft z k := by
  rw [fft, fft, fft, ← Finset.sum_add_distrib]
  exact Finset.sum_congr rfl fun m _ => by ring

theorem dctRaw_mul_const {K : ℕ} (y : Fin K → ℝ) (c : ℝ) :
    dctRaw (fun m => y m * c) = fun k => dctRaw y k * c := by
  funext k
  rw [dctRaw, dctRaw]
  have hint : (fun i => ((_dct_interleave (fun m => y m * c) i : ℝ) : ℂ))
      = fun i => ((_dct_interleave y i : ℝ) : ℂ) * (c : ℝ) := by
    funext i
    rw [interleave_apply', interleave_apply']
    push_cast
    ring
  rw [hint, fft_mul_const (fun i => ((_dct_interleave y i : ℝ) : ℂ)) (c : ℝ) k]
  rw [show fft (fun i => ((_dct_interleave y i : ℝ) : ℂ)) k * (c : ℝ) * _W4 K k.val
      = fft (fun i => ((_dct_interleave y i : ℝ) : ℂ)) k * _W4 K k.val * (c : ℝ)
    from by ring]
  rw [mul_comm (fft (fun i => ((_dct_interleave y i : ℝ) : ℂ)) k * _W4 K k.val)
      ((c : ℝ) : ℂ), Complex.re_ofReal_mul]
  ring

/-! ### Commutation of per-axis operations (claim C2) -/

theorem mapRows_int_mapCols {N1 N2 : ℕ} {α β : Type}
    (g : (Fin N1 → α) → Fin N1 → β) (M : Mat N1 N2 α) :
    mapRows _dct_interleave (mapCols g M)
      = mapCols g (mapRows _dct_interleave M) := by
  funext i j
  show _dct_interleave (fun j' => g (fun i' => M i' j') i) j
    = g (fun i' => _dct_interleave (M i') j) i
  rw [interleave_apply',
    show (fun i' => _dct_interleave (M i') j) = fun i' => M i' (interleaveIdx j)
      from funext fun i' => interleave_apply' (M i') j]

theorem mapCols_int_mapRows {N1 N2 : ℕ} {α β : Type}
    (g : (Fin N2 → α) → Fin N2 → β) (M : Mat N1 N2 α) :
    mapCols _dct_interleave (mapRows g M)
      = mapRows g (mapCols _dct_interleave M) := by
  funext i j
  show _dct_interleave (fun i' => g (M i') j) i
    = g (fun j' => _dct_interleave (fun i' => M i' j') i) j
  rw [interleave_apply',
    show (fun j' => _dct_interleave (fun i' => M i' j') i)
        = fun j' => M (interleaveIdx i) j'
      from funext fun j' => interleave_apply' (fun i' => M i' j') i]

theorem interleave_ofReal {N : ℕ} (y : Fin N → ℝ) :
    (fun m => ((_dct_interleave y m : ℝ) : ℂ))
      = _dct_interleave (fun m => ((y m : ℝ) : ℂ)) := by
  funext m
  rw [interleave_apply', interleave_apply']

theorem fftAx_comm {N1 N2 : ℕ} (W : Mat N1 N2 ℂ) :
    mapCols fft (mapRows fft W) = mapRows fft (mapCols fft W) := by
  funext i j
  have h1 : mapCols fft (mapRows fft W) i j
      = ∑ i' : Fin N1, (∑ j' : Fin N2,
          W i' j' * ep (-(2 * Real.pi * j'.val * j.val) / N2))
            * ep (-(2 * Real.pi * i'.val * i.val) / N1) := rfl
  have h2 : mapRows fft (mapCols fft W) i j
      = ∑ j' : Fin N2, (∑ i' : Fin N1,
          W i' j' * ep (-(2 * Real.pi * i'.val * i.val) / N1))
            * ep (-(2 * Real.pi * j'.val * j.val) / N2) := rfl
  rw [h1, h2,
    Finset.sum_congr rfl fun i' (_ : i' ∈ Finset.univ) => Finset.sum_mul _ _ _,
    Finset.sum_congr rfl fun j' (_ : j' ∈ Finset.univ) => Finset.sum_mul _ _ _,
    Finset.sum_comm]
  exact Finset.sum_congr rfl fun j' _ => Finset.sum_congr rfl fun i' _ => by
    ring

theorem mapRows_raw_mapCols_ortho {N1 N2 : ℕ} (Y : Mat N1 N2 ℝ) :
    mapRows dctRaw (mapCols _dct_ortho_norm Y)
      = mapCols _dct_ortho_norm (mapRows dctRaw Y) := by
  funext i j
  show dctRaw (fun j' => _dct_ortho_norm (fun i' => Y i' j') i) j
    = _dct_ortho_norm (fun i' => dctRaw (Y i') j) i
  rw [_dct_ortho_norm_apply]
  rw [show (fun j' => _dct_ortho_norm (fun i' => Y i' j') i)
      = fun j' => Y i j' * (Real.sqrt ((if i.val = 0 then 4 else 2) * N1))⁻¹
    from funext fun j' => by rw [_dct_ortho_norm_apply, div_eq_mul_inv]]
  rw [congrFun (dctRaw_mul_const (Y i)
    ((Real.sqrt ((if i.val = 0 then 4 else 2) * N1))⁻¹)) j, div_eq_mul_inv]

theorem mapCols_raw_mapRows_ortho {N1 N2 : ℕ} (Y : Mat N1 N2 ℝ) :
    mapCols dctRaw (mapRows _dct_ortho_norm Y)
      = mapRows _dct_ortho_norm (mapCols dctRaw Y) := by
  funext i j
  show dctRaw (fun i' => _dct_ortho_norm (Y i') j) i
    = _dct_ortho_norm (fun j' => dctRaw (fun i' => Y i' j') i) j
  rw [_dct_ortho_norm_apply]
  rw [show (fun i' => _dct_ortho_norm (Y i') j)
      = fun i' => Y i' j * (Real.sqrt ((if j.val = 0 then 4 else 2) * N2))⁻¹
    from funext fun i' => by rw [_dct_ortho_norm_apply, div_eq_mul_inv]]
  rw [congrFun (dctRaw_mul_const (fun i' => Y i' j)
    ((Real.sqrt ((if j.val = 0 then 4 else 2) * N2))⁻¹)) i, div_eq_mul_inv]

theorem ortho_ax_comm {N1 N2 : ℕ} (Z : Mat N1 N2 ℝ) :
    mapCols _dct_ortho_norm (mapRows _dct_ortho_norm Z)
      = mapRows _dct_ortho_norm (mapCols _dct_ortho_norm Z) := by
  funext i j
  show _dct_ortho_norm (fun i' => _dct_ortho_norm (Z i') j) i
    = _dct_ortho_norm (fun j' => _dct_ortho_norm (fun i' => Z i' j') i) j
  rw [_dct_ortho_norm_apply, _dct_ortho_norm_apply, _dct_ortho_norm_apply,
    _dct_ortho_norm_apply, div_right_comm]

theorem fft_conj' {M : ℕ} (y : Fin M → ℂ) (k : Fin M) :
    (starRingEnd ℂ) (fft y k)
      = fft (fun m => (starRingEnd ℂ) (y m)) (negIdx k) := by
  have h := congrArg (starRingEnd ℂ)
    (fft_conj (fun m => (starRingEnd ℂ) (y m)) k)
  simp only [Complex.conj_conj] at h
  exact h

/-- Hermitian symmetry of the joint FFT of a real array. -/
theorem fft2_hermitian {N1 N2 : ℕ} (w : Mat N1 N2 ℝ) (a : Fin N1) (b : Fin N2) :
    (starRingEnd ℂ)
        (mapRows fft (mapCols fft (fun p q => ((w p q : ℝ) : ℂ))) a b)
      = mapRows fft (mapCols fft (fun p q => ((w p q : ℝ) : ℂ)))
          (negIdx a) (negIdx b) := by
  have h2 : ∀ (p : Fin N1) (q : Fin N2),
      (starRingEnd ℂ) (mapCols fft (fun p' q' => ((w p' q' : ℝ) : ℂ)) p q)
        = mapCols fft (fun p' q' => ((w p' q' : ℝ) : ℂ)) (negIdx p) q := by
    intro p q
    show (starRingEnd ℂ) (fft (fun p' => ((w p' q : ℝ) : ℂ)) p)
      = fft (fun p' => ((w p' q : ℝ) : ℂ)) (negIdx p)
    rw [fft_conj' (fun p' => ((w p' q : ℝ) : ℂ)) p]
    rw [show (fun m => (starRingEnd ℂ) ((w m q : ℝ) : ℂ))
        = fun m => ((w m q : ℝ) : ℂ)
      from funext fun m => Complex.conj_ofReal _]
  show (starRingEnd ℂ)
      (fft (mapCols fft (fun p q => ((w p q : ℝ) : ℂ)) a) b) = _
  rw [fft_conj' (mapCols fft (fun p q => ((w p q : ℝ) : ℂ)) a) b,
    show (fun m => (starRingEnd ℂ)
        (mapCols fft (fun p q => ((w p q : ℝ) : ℂ)) a m))
      = fun m => mapCols fft (fun p q => ((w p q : ℝ) : ℂ)) (negIdx a) m
    from funext fun m => h2 a m]
  rfl

theorem re_mul_swap (w1 w2 z1 z2 : ℂ) :
    ((w1 * z1 + (starRingEnd ℂ) w1 * (starRingEnd ℂ) z2) * w2).re
      = (w1 * (w2 * z1 + (starRingEnd ℂ) w2 * z2)).re := by
  rw [add_mul, mul_add, Complex.add_re, Complex.add_re]
  congr 1
  · exact congrArg Complex.re (by ring)
  · rw [← Complex.conj_re ((starRingEnd ℂ) w1 * (starRingEnd ℂ) z2 * w2),
      map_mul, map_mul, Complex.conj_conj, Complex.conj_conj]
    exact congrArg Complex.re (by ring)

/-- The 2-D fast-path spectrum combination equals the sequential 1-D raw DCT
along axis 0 followed by axis 1. -/
theorem dct2_raw_seq01 {N1 N2 : ℕ} (x : Mat N1 N2 ℝ) (i : Fin N1) (j : Fin N2) :
    mapRows dctRaw (mapCols dctRaw x) i j =
      2 * (_W4 N1 i.val * (_W4 N2 j.val
          * mapRows fft (mapCols fft (fun a b =>
              ((mapRows _dct_interleave (mapCols _dct_interleave x) a b : ℝ) : ℂ)))
              i j
        + _W4 N2 (-(j.val : ℝ))
          * mapRows fft (mapCols fft (fun a b =>
              ((mapRows _dct_interleave (mapCols _dct_interleave x) a b : ℝ) : ℂ)))
              i (negIdx j))).re := by
  set y0 : Mat N1 N2 ℝ := mapCols _dct_interleave x with hy0
  set v2 : Mat N1 N2 ℝ := mapRows _dct_interleave y0 with hv2
  set V : Mat N1 N2 ℂ :=
    mapRows fft (mapCols fft (fun a b => ((v2 a b : ℝ) : ℂ))) with hV2
  set UC : Mat N1 N2 ℂ := mapCols fft (fun a b => ((y0 a b : ℝ) : ℂ)) with hUC
  set A : Mat N1 N2 ℝ := mapCols dctRaw x with hA
  have step1 : ∀ (a : Fin N1) (b : Fin N2), ((A a b : ℝ) : ℂ)
      = UC a b * _W4 N1 a.val + (starRingEnd ℂ) (UC a b * _W4 N1 a.val) := by
    intro a b
    exact (Complex.add_conj _).symm
  have hProw : ∀ b : Fin N2,
      fft (fun j' => (mapRows _dct_interleave UC) i j') b = V i b := by
    intro b
    have hcomm : mapRows _dct_interleave UC
        = mapCols fft (fun a b' => ((v2 a b' : ℝ) : ℂ)) := by
      rw [hUC, mapRows_int_mapCols fft]
      refine congrArg (mapCols fft) (funext fun a => funext fun b' => ?_)
      show _dct_interleave (fun q => ((y0 a q : ℝ) : ℂ)) b' = ((v2 a b' : ℝ) : ℂ)
      rw [interleave_apply',
        show v2 a b' = _dct_interleave (y0 a) b' from rfl, interleave_apply']
    rw [hcomm]
    rfl
  have step2 : fft (fun j' => ((_dct_interleave (A i) j' : ℝ) : ℂ)) j
      = _W4 N1 i.val * V i j
        + (starRingEnd ℂ) (_W4 N1 i.val)
          * (starRingEnd ℂ) (V i (negIdx j)) := by
    have hrow : (fun j' => ((_dct_interleave (A i) j' : ℝ) : ℂ))
        = fun j' => _W4 N1 i.val * (mapRows _dct_interleave UC) i j'
            + (starRingEnd ℂ)
                (_W4 N1 i.val * (mapRows _dct_interleave UC) i j') := by
      funext j'
      rw [interleave_apply', step1 i (interleaveIdx j'),
        show (mapRows _dct_interleave UC) i j' = UC i (interleaveIdx j')
          from interleave_apply' (UC i) j',
        mul_comm (UC i (interleaveIdx j')) (_W4 N1 i.val)]
    rw [hrow, fft_add, fft_const_mul,
      show (fun j' => (starRingEnd ℂ)
          (_W4 N1 i.val * (mapRows _dct_interleave UC) i j'))
        = fun j' => (starRingEnd ℂ) (_W4 N1 i.val)
            * (starRingEnd ℂ) ((mapRows _dct_interleave UC) i j')
        from funext fun j' => map_mul _ _ _,
      fft_const_mul, fft_conj ((mapRows _dct_interleave UC) i) j,
      hProw j, hProw (negIdx j)]
  show 2 * (fft (fun j' => ((_dct_interleave (A i) j' : ℝ) : ℂ)) j
      * _W4 N2 j.val).re = _
  rw [step2, _W4_neg N2 (j.val : ℝ),
    re_mul_swap (_W4 N1 i.val) (_W4 N2 j.val) (V i j) (V i (negIdx j))]

/-- The 2-D fast-path spectrum combination also equals the sequential 1-D raw
DCT along axis 1 followed by axis 0 (this direction rests on the Hermitian
symmetry of the FFT of the real interleaved input). -/
theorem dct2_raw_seq10 {N1 N2 : ℕ} (x : Mat N1 N2 ℝ) (i : Fin N1) (j : Fin N2) :
    mapCols dctRaw (mapRows dctRaw x) i j =
      2 * (_W4 N1 i.val * (_W4 N2 j.val
          * mapRows fft (mapCols fft (fun a b =>
              ((mapRows _dct_interleave (mapCols _dct_interleave x) a b : ℝ) : ℂ)))
              i j
        + _W4 N2 (-(j.val : ℝ))
          * mapRows fft (mapCols fft (fun a b =>
              ((mapRows _dct_interleave (mapCols _dct_interleave x) a b : ℝ) : ℂ)))
              i (negIdx j))).re := by
  set y1 : Mat N1 N2 ℝ := mapRows _dct_interleave x with hy1
  set v2 : Mat N1 N2 ℝ := mapRows _dct_interleave (mapCols _dct_interleave x)
    with hv2
  set V : Mat N1 N2 ℂ :=
    mapRows fft (mapCols fft (fun a b => ((v2 a b : ℝ) : ℂ))) with hV2
  set G2 : Mat N1 N2 ℂ := mapRows fft (fun a b => ((y1 a b : ℝ) : ℂ)) with hG2
  set A2 : Mat N1 N2 ℝ := mapRows dctRaw x with hA2
  have step1 : ∀ (a : Fin N1) (b : Fin N2), ((A2 a b : ℝ) : ℂ)
      = G2 a b * _W4 N2 b.val + (starRingEnd ℂ) (G2 a b * _W4 N2 b.val) := by
    intro a b
    exact (Complex.add_conj _).symm
  have hcomm2 : mapCols _dct_interleave G2
      = mapRows fft (fun a b => ((v2 a b : ℝ) : ℂ)) := by
    rw [hG2, mapCols_int_mapRows fft]
    refine congrArg (mapRows fft) (funext fun a => funext fun b => ?_)
    show _dct_interleave (fun p => ((y1 p b : ℝ) : ℂ)) a = ((v2 a b : ℝ) : ℂ)
    rw [interleave_apply',
      show y1 (interleaveIdx a) b = x (interleaveIdx a) (interleaveIdx b)
        from interleave_apply' (x (interleaveIdx a)) b,
      show v2 a b = ((mapCols _dct_interleave x) a) (interleaveIdx b)
        from interleave_apply' ((mapCols _dct_interleave x) a) b,
      show ((mapCols _dct_interleave x) a) (interleaveIdx b)
          = _dct_interleave (fun p => x p (interleaveIdx b)) a from rfl,
      interleave_apply' (fun p => x p (interleaveIdx b)) a]
  have hPcol : ∀ a : Fin N1,
      fft (fun i' => (mapCols _dct_interleave G2) i' j) a = V a j := by
    intro a
    show mapCols fft (mapCols _dct_interleave G2) a j = V a j
    rw [hcomm2]
    exact congrFun (congrFun (fftAx_comm (fun a b => ((v2 a b : ℝ) : ℂ))) a) j
  have step2 : fft (fun i' =>
        ((_dct_interleave (fun i'' => A2 i'' j) i' : ℝ) : ℂ)) i
      = _W4 N2 j.val * V i j
        + (starRingEnd ℂ) (_W4 N2 j.val)
          * (starRingEnd ℂ) (V (negIdx i) j) := by
    have hrow : (fun i' => ((_dct_interleave (fun i'' => A2 i'' j) i' : ℝ) : ℂ))
        = fun i' => _W4 N2 j.val * (mapCols _dct_interleave G2) i' j
            + (starRingEnd ℂ)
                (_W4 N2 j.val * (mapCols _dct_interleave G2) i' j) := by
      funext i'
      rw [interleave_apply', step1 (interleaveIdx i') j,
        show (mapCols _dct_interleave G2) i' j = G2 (interleaveIdx i') j
          from interleave_apply' (fun p => G2 p j) i',
        mul_comm (G2 (interleaveIdx i') j) (_W4 N2 j.val)]
    rw [hrow, fft_add, fft_const_mul,
      show (fun i' => (starRingEnd ℂ)
          (_W4 N2 j.val * (mapCols _dct_interleave G2) i' j))
        = fun i' => (starRingEnd ℂ) (_W4 N2 j.val)
            * (starRingEnd ℂ) ((mapCols _dct_interleave G2) i' j)
        from funext fun i' => map_mul _ _ _,
      fft_const_mul, fft_conj (fun i' => (mapCols _dct_interleave G2) i' j) i,
      hPcol i, hPcol (negIdx i)]
  have hherm : (starRingEnd ℂ) (V (negIdx i) j) = V i (negIdx j) := by
    have hH := fft2_hermitian v2 (negIdx i) j
    rw [negIdx_negIdx i] at hH
    exact hH
  show 2 * (fft (fun i' =>
      ((_dct_interleave (fun i'' => A2 i'' j) i' : ℝ) : ℂ)) i
      * _W4 N1 i.val).re = _
  rw [step2, hherm, _W4_neg N2 (j.val : ℝ)]
  exact congrArg (fun r => 2 * r) (congrArg Complex.re (mul_comm _ _))

theorem seq01_eq_seq10 {N1 N2 : ℕ} (x : Mat N1 N2 ℝ) :
    mapRows dctRaw (mapCols dctRaw x) = mapCols dctRaw (mapRows dctRaw x) :=
  funext fun i => funext fun j =>
    (dct2_raw_seq01 x i j).trans (dct2_raw_seq10 x i j).symm

theorem dct2_run_out_eq {N1 N2 : ℕ} (x : Mat N1 N2 ℝ) :
    (fun (i : Fin N1) (j : Fin N2) => 2 * (_W4 N1 i.val * (_W4 N2 j.val
        * mapRows fft (mapCols fft (fun a b =>
            ((mapRows _dct_interleave (mapCols _dct_interleave x) a b : ℝ) : ℂ)))
            i j
      + _W4 N2 (-(j.val : ℝ))
        * mapRows rollOne (mapRows revLine (mapRows fft (mapCols fft (fun a b =>
            ((mapRows _dct_interleave (mapCols _dct_interleave x) a b : ℝ) : ℂ)))))
            i j)).re)
      = mapRows dctRaw (mapCols dctRaw x) := by
  funext i j
  rw [show mapRows rollOne (mapRows revLine (mapRows fft (mapCols fft (fun a b =>
      ((mapRows _dct_interleave (mapCols _dct_interleave x) a b : ℝ) : ℂ))))) i j
      = mapRows fft (mapCols fft (fun a b =>
          ((mapRows _dct_interleave (mapCols _dct_interleave x) a b : ℝ) : ℂ)))
          i (negIdx j)
    from roll_flip_apply _ j]
  exact (dct2_raw_seq01 x i j).symm

theorem dct2_run_seq01full {N1 N2 : ℕ} (norm : Option String)
    (x : Mat N1 N2 ℝ) :
    _dct2_run 0 1 norm x = mapRows (dctCore norm) (mapCols (dctCore norm) x) := by
  by_cases hn : norm = some "ortho"
  · have hORT : _dct2_run 0 1 norm x
        = mapRows _dct_ortho_norm (mapCols _dct_ortho_norm
            (fun (i : Fin N1) (j : Fin N2) => 2 * (_W4 N1 i.val * (_W4 N2 j.val
              * mapRows fft (mapCols fft (fun a b =>
                  ((mapRows _dct_interleave (mapCols _dct_interleave x) a b : ℝ)
                    : ℂ))) i j
            + _W4 N2 (-(j.val : ℝ))
              * mapRows rollOne (mapRows revLine (mapRows fft (mapCols fft
                  (fun a b => ((mapRows _dct_interleave (mapCols _dct_interleave x)
                    a b : ℝ) : ℂ))))) i j)).re)) := if_pos hn
    rw [hORT, dct2_run_out_eq x,
      show (dctCore (N := N2) norm) = fun y => _dct_ortho_norm (dctRaw y)
        from funext fun y => if_pos hn,
      show (dctCore (N := N1) norm) = fun y => _dct_ortho_norm (dctRaw y)
        from funext fun y => if_pos hn]
    show mapRows _dct_ortho_norm (mapCols _dct_ortho_norm
        (mapRows dctRaw (mapCols dctRaw x)))
      = mapRows _dct_ortho_norm (mapRows dctRaw
          (mapCols _dct_ortho_norm (mapCols dctRaw x)))
    rw [mapRows_raw_mapCols_ortho (mapCols dctRaw x)]
  · have hRAW : _dct2_run 0 1 norm x
        = (fun (i : Fin N1) (j : Fin N2) => 2 * (_W4 N1 i.val * (_W4 N2 j.val
            * mapRows fft (mapCols fft (fun a b =>
                ((mapRows _dct_interleave (mapCols _dct_interleave x) a b : ℝ)
                  : ℂ))) i j
          + _W4 N2 (-(j.val : ℝ))
            * mapRows rollOne (mapRows revLine (mapRows fft (mapCols fft
                (fun a b => ((mapRows _dct_interleave (mapCols _dct_interleave x)
                  a b : ℝ) : ℂ))))) i j)).re) := if_neg hn
    rw [hRAW, dct2_run_out_eq x,
      show (dctCore (N := N2) norm) = dctRaw from funext fun y => if_neg hn,
      show (dctCore (N := N1) norm) = dctRaw from funext fun y => if_neg hn]

theorem dct2_run_seq10full {N1 N2 : ℕ} (norm : Option String)
    (x : Mat N1 N2 ℝ) :
    _dct2_run 0 1 norm x = mapCols (dctCore norm) (mapRows (dctCore norm) x) := by
  by_cases hn : norm = some "ortho"
  · have hORT : _dct2_run 0 1 norm x
        = mapRows _dct_ortho_norm (mapCols _dct_ortho_norm
            (fun (i : Fin N1) (j : Fin N2) => 2 * (_W4 N1 i.val * (_W4 N2 j.val
              * mapRows fft (mapCols fft (fun a b =>
                  ((mapRows _dct_interleave (mapCols _dct_interleave x) a b : ℝ)
                    : ℂ))) i j
            + _W4 N2 (-(j.val : ℝ))
              * mapRows rollOne (mapRows revLine (mapRows fft (mapCols fft
                  (fun a b => ((mapRows _dct_interleave (mapCols _dct_interleave x)
                    a b : ℝ) : ℂ))))) i j)).re)) := if_pos hn
    rw [hORT, dct2_run_out_eq x,
      show (dctCore (N := N2) norm) = fun y => _dct_ortho_norm (dctRaw y)
        from funext fun y => if_pos hn,
      show (dctCore (N := N1) norm) = fun y => _dct_ortho_norm (dctRaw y)
        from funext fun y => if_pos hn]
    show mapRows _dct_ortho_norm (mapCols _dct_ortho_norm
        (mapRows dctRaw (mapCols dctRaw x)))
      = mapCols _dct_ortho_norm (mapCols dctRaw
          (mapRows _dct_ortho_norm (mapRows dctRaw x)))
    rw [mapCols_raw_mapRows_ortho (mapRows dctRaw x), ← seq01_eq_seq10 x,
      ortho_ax_comm (mapRows dctRaw (mapCols dctRaw x))]
  · have hRAW : _dct2_run 0 1 norm x
        = (fun (i : Fin N1) (j : Fin N2) => 2 * (_W4 N1 i.val * (_W4 N2 j.val
            * mapRows fft (mapCols fft (fun a b =>
                ((mapRows _dct_interleave (mapCols _dct_interleave x) a b : ℝ)
                  : ℂ))) i j
          + _W4 N2 (-(j.val : ℝ))
            * mapRows rollOne (mapRows revLine (mapRows fft (mapCols fft
                (fun a b => ((mapRows _dct_interleave (mapCols _dct_interleave x)
                  a b : ℝ) : ℂ))))) i j)).re) := if_neg hn
    rw [hRAW, dct2_run_out_eq x, seq01_eq_seq10 x,
      show (dctCore (N := N2) norm) = dctRaw from funext fun y => if_neg hn,
      show (dctCore (N := N1) norm) = dctRaw from funext fun y => if_neg hn]

/-- C2: for every 2-D real array and every norm setting, `dctn` with
`axes=(0,1)` — computed by the 2-D fast path `_dct2`, which interleaves both
axes, runs one joint FFT, and combines each twiddle term with its
rolled-and-flipped mirror term along the second axis — equals the sequential
application of the 1-D `dct` along axis 0 then axis 1, and equally along
axis 1 then axis 0, exactly in the exact-real idealization. -/
theorem claim_c2_dctn2_equiv (N1 N2 : ℕ) (norm : Option String)
    (x : Mat N1 N2 ℝ) :
    (dctn arr2Model 2 none (some [0, 1]) norm ⟨N1, N2, x⟩
      = (dct2d 2 none 0 norm ⟨N1, N2, x⟩).bind
          (fun Y => dct2d 2 none 1 norm Y)) ∧
    (dctn arr2Model 2 none (some [0, 1]) norm ⟨N1, N2, x⟩
      = (dct2d 2 none 1 norm ⟨N1, N2, x⟩).bind
          (fun Y => dct2d 2 none 0 norm Y)) := by
  constructor
  · show Except.ok (⟨N1, N2, _dct2_run 0 1 norm x⟩ : Arr2)
      = Except.ok (⟨N1, N2,
          mapRows (dctCore norm) (mapCols (dctCore norm) x)⟩ : Arr2)
    exact congrArg (fun h => Except.ok (⟨N1, N2, h⟩ : Arr2))
      (dct2_run_seq01full norm x)
  · show Except.ok (⟨N1, N2, _dct2_run 0 1 norm x⟩ : Arr2)
      = Except.ok (⟨N1, N2,
          mapCols (dctCore norm) (mapRows (dctCore norm) x)⟩ : Arr2)
    exact congrArg (fun h => Except.ok (⟨N1, N2, h⟩ : Arr2))
      (dct2_run_seq10full norm x)

end



